import Mathlib

/-!
Verification of the extraction-and-reconciliation pipeline of the
apartment-finder scraper (src/scraper.py) against its specification.

The Python source is shallowly embedded: strings are Lean strings (scanned
as lists of characters), Python integers are Nat, Python floats arising
from bath counts are modelled as rationals (the float values involved are
small decimal literals, represented exactly), optional fields are Option,
and a Python function that can raise an exception returns Except.
Regular-expression searches from the source are embedded as explicit
left-to-right scanners; each scanner is annotated with the regex it
implements and follows the leftmost-match semantics of re.search
(backtracking is resolved in comments at each definition).
-/

/-! ## Basic text helpers -/

/-- Model of Python str.lower restricted to the character ranges that occur
in this program: ASCII letters and the Latin-1 uppercase range (Python
lowercases both; codepoint 215 is the multiplication sign and is kept). -/
def pyToLower (c : Char) : Char :=
  if 65 ≤ c.toNat ∧ c.toNat ≤ 90 then Char.ofNat (c.toNat + 32)
  else if 192 ≤ c.toNat ∧ c.toNat ≤ 222 ∧ c.toNat ≠ 215 then Char.ofNat (c.toNat + 32)
  else c

/-- Lowercased character data of a string, modelling text.lower(). -/
def lowerData (s : String) : List Char := s.data.map pyToLower

/-- Python regex whitespace class over the ASCII range: space, tab,
newline, carriage return, vertical tab, form feed. -/
def isPySpace (c : Char) : Bool :=
  c == ' ' || c == '\t' || c == '\n' || c == '\r' || c == '\x0b' || c == '\x0c'

/-- Numeric value of a list of decimal digit characters, as computed by
Python int() on the matched group. -/
def digitsVal (ds : List Char) : Nat :=
  ds.foldl (fun n c => 10 * n + (c.toNat - 48)) 0

/-- Model of the Python substring test (needle in haystack). -/
def containsSeq (needle : List Char) : List Char → Bool
  | [] => needle.isEmpty
  | c :: cs => needle.isPrefixOf (c :: cs) || containsSeq needle cs

/-! ## Field parsers (src/scraper.py lines 135-178) -/

/-- Leftmost maximal run of decimal digits in a character list; this is the
group captured by the regex search in parse_price once commas have been
removed (the optional dollar sign in the pattern never affects the digits
captured). -/
def firstDigitRun : List Char → Option (List Char)
  | [] => none
  | c :: cs =>
    if c.isDigit then some (c :: cs.takeWhile Char.isDigit)
    else firstDigitRun cs

/-- parse_price (scraper.py lines 135-142): on a falsy (empty) string
return nothing, otherwise strip commas and return the first contiguous
digit run as an integer; nothing when no digit exists. -/
def parse_price (s : String) : Option Nat :=
  if s.data.isEmpty then none
  else
    match firstDigitRun (s.data.filter (fun c => c != ',')) with
    | some run => some (digitsVal run)
    | none => none

/-- Character class of the numeric token scanner: digits, plus the dot when
the pattern allows fractional values. -/
def numTokClass (allowDot : Bool) (c : Char) : Bool :=
  c.isDigit || (allowDot && c == '.')

/-- Scanner for the regex (RUN)\s*TOK where RUN is a nonempty run over
numTokClass: returns the captured run of the leftmost match.  Greedy
backtracking collapses: a shortened run leaves a class character where the
whitespace or the token letter is expected, and a shortened whitespace
skip leaves a space where the token letter is expected, so only the
maximal run and the maximal space skip can succeed at a given position. -/
def searchNumTok (allowDot : Bool) (tok : List Char) : List Char → Option (List Char)
  | [] => none
  | c :: cs =>
    if numTokClass allowDot c then
      (if tok.isPrefixOf ((cs.dropWhile (numTokClass allowDot)).dropWhile isPySpace)
       then some (c :: cs.takeWhile (numTokClass allowDot))
       else searchNumTok allowDot tok cs)
    else searchNumTok allowDot tok cs

/-- Model of Python float() applied to a string of digits and dots (the
only shape the bath regex can capture): it succeeds exactly when there is
at least one digit and at most one dot, and then denotes the exact decimal
value; otherwise float() raises ValueError, modelled by none. -/
def pyFloatOfRun (run : List Char) : Option ℚ :=
  if run.any Char.isDigit && decide (run.count '.' ≤ 1) then
    some (mkRat
      (digitsVal (run.takeWhile (fun c => c != '.')) *
          10 ^ ((run.dropWhile (fun c => c != '.')).drop 1).length +
        digitsVal ((run.dropWhile (fun c => c != '.')).drop 1))
      (10 ^ ((run.dropWhile (fun c => c != '.')).drop 1).length))
  else none

/-- parse_beds_baths (scraper.py lines 145-160): beds from the regex
(\d+)\s*bed on the lowercased text, falling back to 0 when the literal
studio occurs; baths from ([\d.]+)\s*bath converted by float().  The
float() call raises ValueError when the captured run has no digit or more
than one dot, so the embedding returns Except. -/
def parse_beds_baths (text : String) : Except String (Option Nat × Option ℚ) :=
  let lower := lowerData text
  let beds : Option Nat :=
    match searchNumTok false (['b', 'e', 'd']) lower with
    | some run => some (digitsVal run)
    | none => if containsSeq ("studio".data) lower then some 0 else none
  match searchNumTok true (['b', 'a', 't', 'h']) lower with
  | some run =>
    match pyFloatOfRun run with
    | some q => Except.ok (beds, some q)
    | none => Except.error "ValueError: could not convert string to float"
  | none => Except.ok (beds, none)

/-- Keyword set of check_has_laundry (scraper.py lines 163-168). -/
def laundryKeywords : List (List Char) :=
  [("washer".data), ("dryer".data), ("w/d".data), ("laundry in unit".data),
   ("in-unit laundry".data), ("washing machine".data), ("laundry in-unit".data)]

/-- check_has_laundry (scraper.py lines 163-168): true when the lowercased
text contains any keyword of the fixed set. -/
def check_has_laundry (text : String) : Bool :=
  laundryKeywords.any (fun kw => containsSeq kw (lowerData text))

/-! ## MD5 (model of hashlib.md5, the external hash used by
generate_listing_id).  The reference algorithm of RFC 1321 is implemented
over Nat with explicit reduction mod 2^32; bytes are the UTF-8 encoding of
the URL, matching str.encode(). -/

/-- UTF-8 encoding of one Unicode scalar value. -/
def utf8Bytes (n : Nat) : List Nat :=
  if n < 128 then [n]
  else if n < 2048 then [192 + n / 64, 128 + n % 64]
  else if n < 65536 then [224 + n / 4096, 128 + (n / 64) % 64, 128 + n % 64]
  else [240 + n / 262144, 128 + (n / 4096) % 64, 128 + (n / 64) % 64, 128 + n % 64]

/-- UTF-8 bytes of a string, modelling str.encode(). -/
def strBytes (s : String) : List Nat :=
  s.data.foldr (fun c acc => utf8Bytes c.toNat ++ acc) []

/-- Reduction to a 32-bit word. -/
def w32 (n : Nat) : Nat := n % 4294967296

/-- Left rotation of a 32-bit word. -/
def rotl32 (x s : Nat) : Nat := w32 (x * 2 ^ s) + x / 2 ^ (32 - s)

/-- Bitwise complement within 32 bits. -/
def not32 (x : Nat) : Nat := Nat.xor x 4294967295

/-- The four MD5 round functions, selected by round index. -/
def md5F (i b c d : Nat) : Nat :=
  if i < 16 then Nat.lor (Nat.land b c) (Nat.land (not32 b) d)
  else if i < 32 then Nat.lor (Nat.land d b) (Nat.land (not32 d) c)
  else if i < 48 then Nat.xor (Nat.xor b c) d
  else Nat.xor c (Nat.lor b (not32 d))

/-- Message-word index schedule. -/
def md5G (i : Nat) : Nat :=
  if i < 16 then i
  else if i < 32 then (5 * i + 1) % 16
  else if i < 48 then (3 * i + 5) % 16
  else (7 * i) % 16

/-- Per-round left-rotation amounts. -/
def md5S : List Nat :=
  [7, 12, 17, 22, 7, 12, 17, 22, 7, 12, 17, 22, 7, 12, 17, 22,
   5, 9, 14, 20, 5, 9, 14, 20, 5, 9, 14, 20, 5, 9, 14, 20,
   4, 11, 16, 23, 4, 11, 16, 23, 4, 11, 16, 23, 4, 11, 16, 23,
   6, 10, 15, 21, 6, 10, 15, 21, 6, 10, 15, 21, 6, 10, 15, 21]

/-- Sine-derived additive constants. -/
def md5K : List Nat :=
  [0xd76aa478, 0xe8c7b756, 0x242070db, 0xc1bdceee,
   0xf57c0faf, 0x4787c62a, 0xa8304613, 0xfd469501,
   0x698098d8, 0x8b44f7af, 0xffff5bb1, 0x895cd7be,
   0x6b901122, 0xfd987193, 0xa679438e, 0x49b40821,
   0xf61e2562, 0xc040b340, 0x265e5a51, 0xe9b6c7aa,
   0xd62f105d, 0x02441453, 0xd8a1e681, 0xe7d3fbc8,
   0x21e1cde6, 0xc33707d6, 0xf4d50d87, 0x455a14ed,
   0xa9e3e905, 0xfcefa3f8, 0x676f02d9, 0x8d2a4c8a,
   0xfffa3942, 0x8771f681, 0x6d9d6122, 0xfde5380c,
   0xa4beea44, 0x4bdecfa9, 0xf6bb4b60, 0xbebfbc70,
   0x289b7ec6, 0xeaa127fa, 0xd4ef3085, 0x04881d05,
   0xd9d4d039, 0xe6db99e5, 0x1fa27cf8, 0xc4ac5665,
   0xf4292244, 0x432aff97, 0xab9423a7, 0xfc93a039,
   0x655b59c3, 0x8f0ccc92, 0xffeff47d, 0x85845dd1,
   0x6fa87e4f, 0xfe2ce6e0, 0xa3014314, 0x4e0811a1,
   0xf7537e82, 0xbd3af235, 0x2ad7d2bb, 0xeb86d391]

/-- Little-endian 32-bit words of a 64-byte chunk. -/
def leWords : List Nat → List Nat
  | b0 :: b1 :: b2 :: b3 :: rest =>
    (b0 + 256 * b1 + 65536 * b2 + 16777216 * b3) :: leWords rest
  | _ => []

/-- One MD5 round, transforming the running (a, b, c, d) state. -/
def md5Round (m : List Nat) (st : Nat × Nat × Nat × Nat) (i : Nat) :
    Nat × Nat × Nat × Nat :=
  match st with
  | (a, b, c, d) =>
    let f := w32 (md5F i b c d + a + md5K.getD i 0 + m.getD (md5G i) 0)
    (d, w32 (b + rotl32 f (md5S.getD i 0)), b, c)

/-- Process one 64-byte chunk. -/
def md5Chunk (st : Nat × Nat × Nat × Nat) (chunk : List Nat) :
    Nat × Nat × Nat × Nat :=
  match st with
  | (a0, b0, c0, d0) =>
    match (List.range 64).foldl (md5Round (leWords chunk)) (a0, b0, c0, d0) with
    | (a, b, c, d) => (w32 (a0 + a), w32 (b0 + b), w32 (c0 + c), w32 (d0 + d))

/-- Process a padded message 64 bytes at a time. -/
def md5Chunks (st : Nat × Nat × Nat × Nat) : List Nat → Nat × Nat × Nat × Nat
  | [] => st
  | b :: rest => md5Chunks (md5Chunk st ((b :: rest).take 64)) ((b :: rest).drop 64)
termination_by bytes => bytes.length
decreasing_by simp [List.length_drop]; omega

/-- MD5 padding: append 0x80, zero bytes to 56 mod 64, then the bit length
as a little-endian 64-bit quantity. -/
def le8 (n : Nat) : List Nat :=
  [n % 256, n / 256 % 256, n / 65536 % 256, n / 16777216 % 256,
   n / 4294967296 % 256, n / 1099511627776 % 256,
   n / 281474976710656 % 256, n / 72057594037927936 % 256]

/-- Little-endian bytes of one 32-bit word. -/
def le4 (n : Nat) : List Nat :=
  [n % 256, n / 256 % 256, n / 65536 % 256, n / 16777216 % 256]

/-- The padded message. -/
def md5Pad (msg : List Nat) : List Nat :=
  msg ++ 128 :: List.replicate ((119 - msg.length % 64) % 64) 0
    ++ le8 (8 * msg.length % 18446744073709551616)

/-- The sixteen digest bytes of a byte message. -/
def md5Bytes (msg : List Nat) : List Nat :=
  match md5Chunks (0x67452301, 0xefcdab89, 0x98badcfe, 0x10325476) (md5Pad msg) with
  | (a, b, c, d) => le4 a ++ le4 b ++ le4 c ++ le4 d

/-- Lowercase hexadecimal digit. -/
def hexChar (n : Nat) : Char :=
  if n < 10 then Char.ofNat (48 + n) else Char.ofNat (87 + n)

/-- hexdigest() of the MD5 of a string: two lowercase hex characters per
digest byte. -/
def md5Hex (s : String) : List Char :=
  (md5Bytes (strBytes s)).foldr (fun b acc => hexChar (b / 16) :: hexChar (b % 16) :: acc) []

/-! ## generate_listing_id (scraper.py lines 171-178) -/

/-- Scanner for the regex /(\d+)(?:\?|$) used by generate_listing_id:
finds the leftmost slash that is followed by a nonempty digit run whose
end is a question mark or the end of the string (Python end-of-string
also matches just before a single trailing newline).  A shortened greedy
digit run would leave a digit where the question mark or string end is
required, so only the maximal run can succeed at a given slash. -/
def findUrlNum : List Char → Option (List Char)
  | [] => none
  | c :: cs =>
    if c == '/' then
      (let run := cs.takeWhile Char.isDigit
       let rest := cs.dropWhile Char.isDigit
       if !run.isEmpty && (rest.isEmpty || rest == ['\n'] || rest.head? == some '?')
       then some run
       else findUrlNum cs)
    else findUrlNum cs

/-- generate_listing_id (scraper.py lines 171-178): the digits of the
leftmost trailing numeric path segment prefixed by the constant tag, else
the tag plus the first twelve characters of the MD5 hexdigest of the
URL. -/
def generate_listing_id (url : String) : String :=
  match findUrlNum url.data with
  | some run => String.mk (('s' :: 'e' :: '_' :: []) ++ run)
  | none => String.mk (('s' :: 'e' :: '_' :: []) ++ (md5Hex url).take 12)

/-! ## Scanners used inside scrape_listings (scraper.py lines 274-311) -/

/-- Character class of the net-effective and dollar-amount regexes:
digits and commas. -/
def moneyClass (c : Char) : Bool := c.isDigit || c == ','

/-- Scanner for the regex \$([\d,]+)\s*net\s*effective over the lowercased
element text (scraper.py line 286): returns the captured digits-and-commas
run of the leftmost match.  As before greedy backtracking collapses: a
shortened run or space skip leaves a class character where the next
literal is required, so only maximal runs succeed at a given dollar
sign. -/
def searchNetEff : List Char → Option (List Char)
  | [] => none
  | c :: cs =>
    if c == '$' then
      (let run := cs.takeWhile moneyClass
       if run.isEmpty then searchNetEff cs
       else
         let r1 := (cs.dropWhile moneyClass).dropWhile isPySpace
         if ("net".data).isPrefixOf r1 then
           (if ("effective".data).isPrefixOf ((r1.drop 3).dropWhile isPySpace)
            then some run
            else searchNetEff cs)
         else searchNetEff cs)
    else searchNetEff cs

/-- Net-effective price as assigned in scrape_listings lines 285-290: when
the net regex matches, parse_price of the captured group; otherwise the
already-extracted nominal price. -/
def computeNetPrice (elemText : String) (price : Option Nat) : Option Nat :=
  match searchNetEff (lowerData elemText) with
  | some run => parse_price (String.mk run)
  | none => price

/-- Scanner for the fallback price regex \$[\d,]+ over the raw element
text (scraper.py line 276): the whole leftmost match, dollar sign
included, as passed to parse_price. -/
def searchDollarAmt : List Char → Option (List Char)
  | [] => none
  | c :: cs =>
    if c == '$' then
      (let run := cs.takeWhile moneyClass
       if run.isEmpty then searchDollarAmt cs else some ('$' :: run))
    else searchDollarAmt cs

/-- Unit alternatives of the sqft regex (?:ftÂ²|sq\.?\s*ft|square feet);
the Â reproduces the source file byte-for-byte (that alternative can never
match lowercased text, exactly as in the source).  The optional dot of the
second alternative is resolved by trying both branches. -/
def sqftUnitAfter (cs : List Char) : Bool :=
  ("ftÂ²".data).isPrefixOf cs
  || (match cs with
      | 's' :: 'q' :: rest =>
        (match rest with
         | '.' :: r2 => ("ft".data).isPrefixOf (r2.dropWhile isPySpace)
         | _ => false)
        || ("ft".data).isPrefixOf (rest.dropWhile isPySpace)
      | _ => false)
  || ("square feet".data).isPrefixOf cs

/-- Scanner and conversion for sqft (scraper.py lines 299-301): the regex
([\d,]+)\s*UNIT over the lowercased text followed by
int(group.replace(comma, empty)).  When the captured run is all commas the
int() call raises ValueError, modelled by Except.error; when the regex
does not match, sqft is simply left unset. -/
def searchSqftVal : List Char → Except String (Option Nat)
  | [] => Except.ok none
  | c :: cs =>
    if moneyClass c then
      (if sqftUnitAfter ((cs.dropWhile moneyClass).dropWhile isPySpace) then
         (let ds := (c :: cs.takeWhile moneyClass).filter Char.isDigit
          if ds.isEmpty then Except.error "ValueError: invalid literal for int"
          else Except.ok (some (digitsVal ds)))
       else searchSqftVal cs)
    else searchSqftVal cs

/-! ## Data model -/

/-- A normalized listing record as built by scrape_listings. -/
structure Listing where
  id : String
  url : String
  address : Option String := none
  neighborhood : String := "Brooklyn"
  price : Option Nat := none
  net_price : Option Nat := none
  beds : Option Nat := none
  baths : Option ℚ := none
  sqft : Option Nat := none
  has_laundry : Bool := false
  is_no_fee : Bool := false
  raw_text : String := ""
deriving DecidableEq

/-- The search configuration (SEARCH_CONFIG keys used by the filter). -/
structure SearchConfig where
  min_beds : Nat
  max_beds : Nat
  min_baths : ℚ
  max_price : Nat
  preferred_features : List String := []
deriving DecidableEq

/-- Python truthiness of an optional integer: present and nonzero. -/
def pyTruthy : Option Nat → Bool
  | none => false
  | some n => n != 0

/-- Python or on optional integers: the left value when truthy, else the
right value. -/
def pyOr (a b : Option Nat) : Option Nat := if pyTruthy a then a else b

/-! ## Criteria filter (scraper.py lines 330-355) -/

/-- The bath check of the filter loop: reject only when baths is present
and below the minimum. -/
def bathsOk (l : Listing) (c : SearchConfig) : Bool :=
  match l.baths with
  | some q => decide (c.min_baths ≤ q)
  | none => true

/-- The keep decision of one iteration of the filter_listings loop:
price is net_price or price (Python or, so a zero net price falls
through); reject when that value is truthy and exceeds max_price; reject
when beds is present and outside the inclusive range; reject when baths
is present and below min_baths. -/
def keepListing (l : Listing) (c : SearchConfig) : Bool :=
  let price := pyOr l.net_price l.price
  if pyTruthy price && decide (price.getD 0 > c.max_price) then false
  else
    match l.beds with
    | some b =>
      if b < c.min_beds then false
      else if c.max_beds < b then false
      else bathsOk l c
    | none => bathsOk l c

/-- filter_listings (scraper.py lines 330-355): the loop appends, in
order, exactly the listings that pass every check. -/
def filter_listings (listings : List Listing) (c : SearchConfig) : List Listing :=
  listings.filter (fun l => keepListing l c)

/-! ## Listing extraction (scraper.py lines 274-311, per-element body).

The selenium selector results (the listing URL, the address text and the
price text found by structural selectors) are inputs delivered by the
excluded browser collaborator, so they are parameters here; everything
derived from the element text and markup is computed as in the source. -/

/-- Neighborhood inference from the URL (scraper.py lines 304-309). -/
def inferNeighborhood (url : String) : String :=
  if containsSeq ("crown-heights".data) (lowerData url) then "Crown Heights"
  else if containsSeq ("prospect-heights".data) (lowerData url) then "Prospect Heights"
  else "Brooklyn"

/-- The per-element body of scrape_listings (lines 274-311) for an element
with a resolved URL: price from the selector text when truthy, else from
the fallback dollar regex over the visible text; beds and baths from
parse_beds_baths; net price from the net-effective regex with fallback to
price; no-fee and laundry keyword flags; sqft; neighborhood; bounded raw
excerpt.  An exception from a fallible parser is caught by the
per-fragment handler and drops the fragment, modelled by none. -/
def scrape_extract (url elemText elemHtml : String)
    (addrSel priceSel : Option String) : Option Listing :=
  let priceA : Option Nat :=
    match priceSel with
    | some t => parse_price t
    | none => none
  let price : Option Nat :=
    if pyTruthy priceA then priceA
    else
      match searchDollarAmt elemText.data with
      | some g => parse_price (String.mk g)
      | none => priceA
  match parse_beds_baths elemText with
  | Except.error _ => none
  | Except.ok (beds, baths) =>
    match searchSqftVal (lowerData elemText) with
    | Except.error _ => none
    | Except.ok sqft =>
      some
        { id := generate_listing_id url
          url := url
          address := addrSel
          neighborhood := inferNeighborhood url
          price := price
          net_price := computeNetPrice elemText price
          beds := beds
          baths := baths
          sqft := sqft
          has_laundry := check_has_laundry elemText || check_has_laundry elemHtml
          is_no_fee := containsSeq ("no fee".data) (lowerData elemText)
          raw_text := String.mk (elemText.data.take 500) }

/-! ## Deduplication (scraper.py lines 532-538, body of main) -/

/-- The dedupe loop with its running set of seen ids (the set is modelled
by a list queried only through membership). -/
def dedupeGo (seen : List String) : List Listing → List Listing
  | [] => []
  | l :: ls =>
    if l.id ∈ seen then dedupeGo seen ls
    else l :: dedupeGo (l.id :: seen) ls

/-- dedupe (scraper.py lines 532-538): keep a listing when its id has not
been seen yet in this pass. -/
def dedupe (listings : List Listing) : List Listing := dedupeGo [] listings

/-! ## Reconciliation store (scraper.py lines 64-98, 358-393).

The listings table keyed by id is modelled as an association list; SQL
SELECT by primary key is lookup of the first (and only) matching entry,
INSERT appends, and the ON CONFLICT update maps over the matching
entry. -/

/-- A persisted listing row, with the columns populated by save_listings
(the unit and building_name columns of the schema are never written by
the program and carry no data). -/
structure StoredRec where
  first_seen : Nat
  last_seen : Nat
  address : Option String
  neighborhood : String
  price : Option Nat
  net_price : Option Nat
  beds : Option Nat
  baths : Option ℚ
  sqft : Option Nat
  url : String
  has_laundry : Bool
  is_no_fee : Bool
  raw_data : String
deriving DecidableEq

/-- The listings table. -/
abbrev Store : Type := List (String × StoredRec)

/-- SELECT by primary key. -/
def lookupId (st : Store) (i : String) : Option StoredRec :=
  match st with
  | [] => none
  | (j, r) :: rest => if j = i then some r else lookupId rest i

/-- The row inserted for a listing not yet in the table (save_listings
INSERT branch): both timestamps set to the observation time and every
column populated from the listing. -/
def freshRec (l : Listing) (now : Nat) : StoredRec :=
  { first_seen := now
    last_seen := now
    address := l.address
    neighborhood := l.neighborhood
    price := l.price
    net_price := l.net_price
    beds := l.beds
    baths := l.baths
    sqft := l.sqft
    url := l.url
    has_laundry := l.has_laundry
    is_no_fee := l.is_no_fee
    raw_data := l.raw_text }

/-- The ON CONFLICT update of save_listings: only last_seen, price and
net_price change. -/
def updateRec (r : StoredRec) (l : Listing) (now : Nat) : StoredRec :=
  { r with last_seen := now, price := l.price, net_price := l.net_price }

/-- One INSERT ... ON CONFLICT DO UPDATE statement of the save_listings
loop. -/
def upsertOne (st : Store) (l : Listing) (now : Nat) : Store :=
  match lookupId st l.id with
  | none => st ++ [(l.id, freshRec l now)]
  | some _ => st.map (fun p => if p.1 = l.id then (p.1, updateRec p.2 l now) else p)

/-- save_listings (scraper.py lines 371-393): one upsert per listing, all
with the single timestamp taken at the start of the call. -/
def save_listings (st : Store) (listings : List Listing) (now : Nat) : Store :=
  listings.foldl (fun s l => upsertOne s l now) st

/-- get_new_listings (scraper.py lines 358-368): the loop keeps each
listing whose id the SELECT does not find; the call only reads, so the
store component of the result is the store that was passed in. -/
def get_new_listings (st : Store) (listings : List Listing) :
    List Listing × Store :=
  (go st listings, st)
where
  go (st : Store) : List Listing → List Listing
    | [] => []
    | l :: ls =>
      if (lookupId st l.id).isSome then go st ls else l :: go st ls

/-! ## Concrete data shared by witnesses and counterexamples -/

/-- The search configuration of the testable-properties scenario:
max price 4500, two to four beds, at least one bath. -/
def cfg0 : SearchConfig :=
  { min_beds := 2, max_beds := 4, min_baths := 1, max_price := 4500 }

/-- A listing with only required fields. -/
def la : Listing := { id := "se_1", url := "u1" }

/-- A second listing with a distinct id. -/
def lb : Listing := { id := "se_2", url := "u2" }

/-- A listing sharing the id of la but with different surface data. -/
def la2 : Listing := { id := "se_1", url := "u3", price := some 7 }

/-! ## Claim C10 -/

/-- C10: for every input list and configuration, the criteria filter's
output is a subsequence of its input: every kept listing appears
unmodified and in its original relative order, and no listing is
duplicated or altered by filtering. -/
theorem c10_filter_listings_sublist (listings : List Listing) (c : SearchConfig) :
    (filter_listings listings c).Sublist listings :=
  List.filter_sublist listings

/-! ## Claim C9 -/

/-- C9: the concrete fragment text yields beds 2, baths 1.0, price 4200,
no-fee and laundry flags set, and id se_123456 from the trailing URL
number. -/
theorem c9_extraction_scenario :
    (scrape_extract ("https://streeteasy.com/rental/123456")
        ("2 beds · 1 bath · $4,200/mo, no fee, in-unit washer/dryer") ("") none none).map
      (fun l => (l.beds, l.baths, l.price, l.is_no_fee, l.has_laundry, l.id)) =
    some (some 2, some (1 : ℚ), some 4200, true, true, "se_123456") := by
  decide

/-! ## Claim C7.

The claim states that no field parser can fail on any input.  The code
contradicts it: in parse_beds_baths the bath regex ([\d.]+)\s*bath can
capture a run consisting of a lone dot, and float() then raises
ValueError, which escapes the function.  The spec is clearly the intent
(the dot in the character class is there for fractional baths such as
1.5) and the crash on a degenerate dot-run is a slip, so this is recorded
as a code bug; the theorem evaluates the embedded parser at the failing
input. -/

/-- C7: parse_beds_baths raises (returns an error) on the input consisting
of a dot, a space and the word bath, contradicting the never-fails
property claimed for every parser. -/
theorem c7_parse_beds_baths_raises :
    parse_beds_baths (". bath") =
      Except.error ("ValueError: could not convert string to float") := by
  rfl

/-! ## Claim C4 -/

/-- The loop of get_new_listings is a filter on missing ids. -/
theorem get_new_go_eq_filter (st : Store) (ls : List Listing) :
    get_new_listings.go st ls = ls.filter (fun l => !(lookupId st l.id).isSome) := by
  induction ls with
  | nil => rfl
  | cons l ls ih =>
    cases h : lookupId st l.id with
    | some r => simp [get_new_listings.go, h, List.filter_cons, ih]
    | none => simp [get_new_listings.go, h, List.filter_cons, ih]

/-- C4: get_new_listings returns exactly the sublist of the batch whose
ids have no record in the store (membership is equivalent to membership
in the batch plus a failed lookup), and the store component of the result
is exactly the store that was passed in (pure read). -/
theorem c4_get_new_listings_spec (st : Store) (ls : List Listing) :
    (get_new_listings st ls).1 = ls.filter (fun l => !(lookupId st l.id).isSome)
    ∧ (∀ l : Listing, l ∈ (get_new_listings st ls).1 ↔ l ∈ ls ∧ lookupId st l.id = none)
    ∧ (get_new_listings st ls).2 = st := by
  refine ⟨get_new_go_eq_filter st ls, fun l => ?_, rfl⟩
  show l ∈ get_new_listings.go st ls ↔ _
  rw [get_new_go_eq_filter st ls]
  simp [List.mem_filter, Option.isNone_iff_eq_none, Option.not_isSome]

/-- Concrete instantiation of the C4 theorem: with one record present,
the batch splits as described. -/
theorem c4_get_new_listings_witness :
    la2 ∈ (get_new_listings [("se_2", freshRec lb 3)] [la2, lb]).1
    ∧ ¬ lb ∈ (get_new_listings [("se_2", freshRec lb 3)] [la2, lb]).1 := by
  have h := (c4_get_new_listings_spec [("se_2", freshRec lb 3)] [la2, lb]).2.1
  constructor
  · exact (h la2).mpr (by constructor <;> decide)
  · intro hmem
    exact absurd ((h lb).mp hmem).2 (by decide)

/-! ## Claim C5 -/

/-- The dedupe loop output is a subsequence of its input. -/
theorem dedupeGo_sublist (ls : List Listing) :
    ∀ seen, (dedupeGo seen ls).Sublist ls := by
  induction ls with
  | nil => intro seen; simp [dedupeGo]
  | cons l ls ih =>
    intro seen
    by_cases h : l.id ∈ seen
    · simpa [dedupeGo, h] using (ih seen).cons l
    · simpa [dedupeGo, h] using (ih (l.id :: seen)).cons₂ l

/-- Every listing kept by the dedupe loop has an id outside the running
seen set. -/
theorem dedupeGo_id_not_seen (ls : List Listing) :
    ∀ seen, ∀ l ∈ dedupeGo seen ls, l.id ∉ seen := by
  induction ls with
  | nil => intro seen l hl; simp [dedupeGo] at hl
  | cons x ls ih =>
    intro seen l hl
    by_cases h : x.id ∈ seen
    · exact ih seen l (by simpa [dedupeGo, h] using hl)
    · rw [dedupeGo, if_neg h] at hl
      rcases List.mem_cons.mp hl with rfl | hl
      · exact h
      · intro hseen
        exact ih (x.id :: seen) l hl (List.mem_cons_of_mem _ hseen)

/-- The ids kept by the dedupe loop are pairwise distinct. -/
theorem dedupeGo_nodup (ls : List Listing) :
    ∀ seen, ((dedupeGo seen ls).map Listing.id).Nodup := by
  induction ls with
  | nil => intro seen; simp [dedupeGo]
  | cons x ls ih =>
    intro seen
    by_cases h : x.id ∈ seen
    · simpa [dedupeGo, h] using ih seen
    · rw [dedupeGo, if_neg h]
      refine List.nodup_cons.mpr ⟨?_, ih (x.id :: seen)⟩
      intro hmem
      rcases List.mem_map.mp hmem with ⟨l, hl, hid⟩
      exact dedupeGo_id_not_seen ls (x.id :: seen) l hl (by simp [hid])

/-- Each listing kept by the dedupe loop is the first element of the
input with its id. -/
theorem dedupeGo_first_occurrence (ls : List Listing) :
    ∀ seen, ∀ l ∈ dedupeGo seen ls, ls.find? (fun a => a.id == l.id) = some l := by
  induction ls with
  | nil => intro seen l hl; simp [dedupeGo] at hl
  | cons x ls ih =>
    intro seen l hl
    by_cases h : x.id ∈ seen
    · rw [dedupeGo, if_pos h] at hl
      have hne : (x.id == l.id) = false := by
        have := dedupeGo_id_not_seen ls seen l hl
        simp only [beq_eq_false_iff_ne, ne_eq]
        intro hxl
        exact this (hxl ▸ h)
      simp [List.find?_cons, hne]
      exact ih seen l hl
    · rw [dedupeGo, if_neg h] at hl
      rcases List.mem_cons.mp hl with rfl | hl
      · simp [List.find?_cons]
      · have hne : (x.id == l.id) = false := by
          have := dedupeGo_id_not_seen ls (x.id :: seen) l hl
          simp only [beq_eq_false_iff_ne, ne_eq]
          intro hxl
          exact this (by simp [hxl])
        simp [List.find?_cons, hne]
        exact ih (x.id :: seen) l hl

/-- Every input id whose id is not in the seen set survives in some kept
listing. -/
theorem dedupeGo_covers (ls : List Listing) :
    ∀ seen, ∀ l ∈ ls, l.id ∈ seen ∨ ∃ l2 ∈ dedupeGo seen ls, l2.id = l.id := by
  induction ls with
  | nil => intro seen l hl; simp at hl
  | cons x ls ih =>
    intro seen l hl
    by_cases h : x.id ∈ seen
    · rcases List.mem_cons.mp hl with rfl | hl
      · exact Or.inl h
      · rcases ih seen l hl with hs | ⟨l2, hl2, hid⟩
        · exact Or.inl hs
        · exact Or.inr ⟨l2, by simpa [dedupeGo, h] using hl2, hid⟩
    · rw [dedupeGo, if_neg h]
      rcases List.mem_cons.mp hl with rfl | hl
      · exact Or.inr ⟨l, List.mem_cons_self _ _, rfl⟩
      · rcases ih (x.id :: seen) l hl with hs | ⟨l2, hl2, hid⟩
        · rcases List.mem_cons.mp hs with hxl | hs
          · exact Or.inr ⟨x, List.mem_cons_self _ _, hxl.symm⟩
          · exact Or.inl hs
        · exact Or.inr ⟨l2, List.mem_cons_of_mem _ hl2, hid⟩

/-- Running the dedupe loop twice from the same seen set changes
nothing. -/
theorem dedupeGo_idem (ls : List Listing) :
    ∀ seen, dedupeGo seen (dedupeGo seen ls) = dedupeGo seen ls := by
  induction ls with
  | nil => intro seen; simp [dedupeGo]
  | cons x ls ih =>
    intro seen
    by_cases h : x.id ∈ seen
    · simp [dedupeGo, h, ih seen]
    · rw [dedupeGo, if_neg h, dedupeGo, if_neg h, ih (x.id :: seen)]

/-- C5: dedupe keeps exactly the first occurrence of each id in input
order (the output is a subsequence of the input with pairwise distinct
ids, every kept listing is the first input element carrying its id, and
every input id is represented), and dedupe is idempotent. -/
theorem c5_dedupe_spec (x : List Listing) :
    (dedupe x).Sublist x
    ∧ ((dedupe x).map Listing.id).Nodup
    ∧ (∀ l ∈ dedupe x, x.find? (fun a => a.id == l.id) = some l)
    ∧ (∀ l ∈ x, ∃ l2 ∈ dedupe x, l2.id = l.id)
    ∧ dedupe (dedupe x) = dedupe x := by
  refine ⟨dedupeGo_sublist x [], dedupeGo_nodup x [],
    dedupeGo_first_occurrence x [], fun l hl => ?_, dedupeGo_idem x []⟩
  rcases dedupeGo_covers x [] l hl with hs | h
  · simp at hs
  · exact h

/-- Concrete instantiation of the C5 theorem: with two listings sharing
an id, the first occurrence is the one found, and deduping again changes
nothing. -/
theorem c5_dedupe_witness :
    [la, lb, la2].find? (fun a => a.id == la.id) = some la
    ∧ dedupe (dedupe [la, lb, la2]) = dedupe [la, lb, la2] := by
  have h := c5_dedupe_spec [la, lb, la2]
  exact ⟨h.2.2.1 la (by decide), h.2.2.2.2⟩

/-! ## Claims C1 and C2 -/

/-- The price rejection test of the filter is passed exactly when every
value the Python or-expression can denote is within budget. -/
theorem priceCheck_false_iff (pr : Option Nat) (m : Nat) :
    (pyTruthy pr && decide (pr.getD 0 > m)) = false ↔ ∀ p, pr = some p → p ≤ m := by
  cases pr with
  | none => simp [pyTruthy]
  | some p =>
    simp [pyTruthy]
    omega

/-- The bath test is passed exactly when a present bath count meets the
minimum. -/
theorem bathsOk_true_iff (l : Listing) (c : SearchConfig) :
    bathsOk l c = true ↔ ∀ q, l.baths = some q → c.min_baths ≤ q := by
  cases hq : l.baths with
  | none => simp [bathsOk, hq]
  | some q => simp [bathsOk, hq]

/-- Claim C1 exactly as stated, as a Boolean: effective price is
net_price when present, else price; keep iff a present effective price is
within budget, a present bed count is in the inclusive range, and a
present bath count meets the minimum. -/
def specKeepOrig (l : Listing) (c : SearchConfig) : Bool :=
  (match (match l.net_price with | some p => some p | none => l.price) with
   | some p => decide (p ≤ c.max_price)
   | none => true)
  && (match l.beds with
      | some b => decide (c.min_beds ≤ b) && decide (b ≤ c.max_beds)
      | none => true)
  && (match l.baths with
      | some q => decide (c.min_baths ≤ q)
      | none => true)

/-- A listing whose net price is present but zero (as produced by a
zero-dollar net-effective mention) and whose nominal price is over
budget. -/
def lNetZero : Listing := { id := "se_9", url := "u9", price := some 5000, net_price := some 0 }

/-- C1 as stated is false: for the listing with net price 0 and price
5000 under the scenario configuration, the claimed keep condition holds
(the effective price 0 is within budget) yet the filter rejects, because
the Python or-expression skips the falsy zero net price and compares the
nominal 5000 against the budget. -/
theorem c1_counterexample :
    specKeepOrig lNetZero cfg0 = true ∧ keepListing lNetZero cfg0 = false := by
  decide

/-- C1 amended (effective price is net_price when present and nonzero,
otherwise price): the filter keeps a listing exactly when every present
value of that effective price is within budget, a present bed count lies
in the inclusive range, and a present bath count meets the minimum. -/
theorem c1_keep_iff (l : Listing) (c : SearchConfig) :
    keepListing l c = true ↔
      ((∀ p, pyOr l.net_price l.price = some p → p ≤ c.max_price)
       ∧ (∀ b, l.beds = some b → c.min_beds ≤ b ∧ b ≤ c.max_beds)
       ∧ (∀ q, l.baths = some q → c.min_baths ≤ q)) := by
  simp only [keepListing]
  cases hcond : (pyTruthy (pyOr l.net_price l.price) &&
      decide ((pyOr l.net_price l.price).getD 0 > c.max_price)) with
  | true =>
    simp only [if_pos rfl]
    constructor
    · intro h; exact absurd h (by simp)
    · rintro ⟨hp, -, -⟩
      have hfalse := (priceCheck_false_iff (pyOr l.net_price l.price) c.max_price).mpr hp
      rw [hcond] at hfalse
      exact absurd hfalse (by simp)
  | false =>
    rw [if_neg (Bool.false_ne_true)]
    have hprice := (priceCheck_false_iff (pyOr l.net_price l.price) c.max_price).mp hcond
    rcases hb : l.beds with _ | b
    · show bathsOk l c = true ↔ _
      rw [bathsOk_true_iff]
      constructor
      · intro hq
        exact ⟨hprice, ⟨fun b2 hb2 => Option.noConfusion hb2, hq⟩⟩
      · rintro ⟨-, -, hq⟩
        exact hq
    · show (if b < c.min_beds then false
          else if c.max_beds < b then false else bathsOk l c) = true ↔ _
      constructor
      · intro h
        by_cases h1 : b < c.min_beds
        · rw [if_pos h1] at h; exact absurd h (by simp)
        · rw [if_neg h1] at h
          by_cases h2 : c.max_beds < b
          · rw [if_pos h2] at h; exact absurd h (by simp)
          · rw [if_neg h2] at h
            refine ⟨hprice, ?_, (bathsOk_true_iff l c).mp h⟩
            intro b2 hb2
            cases hb2
            omega
      · rintro ⟨-, hbeds, hbaths⟩
        rcases hbeds b rfl with ⟨h1, h2⟩
        rw [if_neg (by omega), if_neg (by omega)]
        exact (bathsOk_true_iff l c).mpr hbaths

/-- A listing the scenario configuration keeps. -/
def lKeep : Listing :=
  { id := "se_5", url := "u5", price := some 4000, beds := some 3, baths := some 1 }

/-- Concrete instantiation of the amended C1 theorem: the in-budget
three-bed listing is kept. -/
theorem c1_keep_iff_witness : keepListing lKeep cfg0 = true := by
  apply (c1_keep_iff lKeep cfg0).mpr
  refine ⟨fun p hp => ?_, fun b hb => ?_, fun q hq => ?_⟩
  · have : p = 4000 := by
      have h4 : pyOr lKeep.net_price lKeep.price = some 4000 := by decide
      rw [h4] at hp
      cases hp
      rfl
    simp [this, cfg0]
  · have hb4 : lKeep.beds = some 3 := by decide
    rw [hb4] at hb
    cases hb
    constructor <;> decide
  · have hq4 : lKeep.baths = some 1 := by decide
    rw [hq4] at hq
    cases hq
    decide

/-- C2: a rejection by the filter always names a concretely present
out-of-range value (an over-budget present price or net price, a present
bed count outside the range, or a present bath count below the minimum),
and a listing with every optional criteria field absent is always
kept. -/
theorem c2_reject_only_present (l : Listing) (c : SearchConfig) :
    (keepListing l c = false →
      (∃ p, (l.net_price = some p ∨ l.price = some p) ∧ c.max_price < p)
      ∨ (∃ b, l.beds = some b ∧ (b < c.min_beds ∨ c.max_beds < b))
      ∨ (∃ q, l.baths = some q ∧ q < c.min_baths))
    ∧ (l.price = none → l.net_price = none → l.beds = none → l.baths = none →
        keepListing l c = true) := by
  constructor
  · intro hrej
    by_cases hkeep : ((∀ p, pyOr l.net_price l.price = some p → p ≤ c.max_price)
       ∧ (∀ b, l.beds = some b → c.min_beds ≤ b ∧ b ≤ c.max_beds)
       ∧ (∀ q, l.baths = some q → c.min_baths ≤ q))
    · rw [(c1_keep_iff l c).mpr hkeep] at hrej
      exact absurd hrej (by simp)
    · rcases not_and_or.mp hkeep with hp | hrest
      · push_neg at hp
        rcases hp with ⟨p, hpr, hgt⟩
        refine Or.inl ⟨p, ?_, by omega⟩
        revert hpr
        unfold pyOr pyTruthy
        cases hnp : l.net_price with
        | some n =>
          cases n with
          | zero => intro h; simp at h; exact Or.inr h
          | succ k =>
            intro h
            simp at h
            exact Or.inl (congrArg some h)
        | none => intro h; simp at h; exact Or.inr h
      · rcases not_and_or.mp hrest with hb | hq
        · push_neg at hb
          rcases hb with ⟨b, hbeds, hout⟩
          exact Or.inr (Or.inl ⟨b, hbeds, by omega⟩)
        · push_neg at hq
          rcases hq with ⟨q, hbaths, hlt⟩
          exact Or.inr (Or.inr ⟨q, hbaths, hlt⟩)
  · intro h1 h2 h3 h4
    apply (c1_keep_iff l c).mpr
    refine ⟨fun p hp => ?_, fun b hb => ?_, fun q hq => ?_⟩
    · rw [pyOr, h1, h2] at hp
      simp [pyTruthy] at hp
    · rw [h3] at hb; cases hb
    · rw [h4] at hq; cases hq

/-- A listing rejected for its present bed count. -/
def lRej : Listing := { id := "se_6", url := "u6", beds := some 1 }

/-- A listing with no optional criteria field. -/
def lEmpty : Listing := { id := "se_7", url := "u7" }

/-- Concrete instantiation of the C2 theorem: the one-bed listing is
rejected for its present out-of-range bed count, and the all-absent
listing is kept. -/
theorem c2_reject_witness :
    ((∃ p, (lRej.net_price = some p ∨ lRej.price = some p) ∧ cfg0.max_price < p)
      ∨ (∃ b, lRej.beds = some b ∧ (b < cfg0.min_beds ∨ cfg0.max_beds < b))
      ∨ (∃ q, lRej.baths = some q ∧ q < cfg0.min_baths))
    ∧ keepListing lEmpty cfg0 = true := by
  have h1 := (c2_reject_only_present lRej cfg0).1
  have h2 := (c2_reject_only_present lEmpty cfg0).2
  exact ⟨h1 (by decide), h2 rfl rfl rfl rfl⟩

/-! ## Claim C3 -/

/-- Looking a key up after appending one row: the old rows shadow the new
one, which is only found when the key was absent. -/
theorem lookupId_append_single (st : Store) (i : String) (r : StoredRec) (j : String) :
    lookupId (st ++ [(i, r)]) j =
      match lookupId st j with
      | some r0 => some r0
      | none => if i = j then some r else none := by
  induction st with
  | nil => rfl
  | cons hd rest ih =>
    obtain ⟨k, r0⟩ := hd
    by_cases h : k = j
    · simp [lookupId, h]
    · simp only [List.cons_append, lookupId]
      rw [if_neg (by simpa using h), if_neg (by simpa using h)]
      exact ih

/-- Unfolding one row of a lookup. -/
theorem lookupId_cons (k : String) (r : StoredRec) (rest : Store) (j : String) :
    lookupId ((k, r) :: rest) j = if k = j then some r else lookupId rest j := rfl

/-- Looking a key up after the conditional per-key update used by the ON
CONFLICT branch: the update applies exactly to the looked-up row of the
updated key, and to nothing else. -/
theorem lookupId_map_upd (st : Store) (i j : String) (g : StoredRec → StoredRec) :
    lookupId (st.map (fun p => if p.1 = i then (p.1, g p.2) else p)) j =
      if i = j then (lookupId st j).map g else lookupId st j := by
  induction st with
  | nil => simp [lookupId]
  | cons hd rest ih =>
    obtain ⟨k, r⟩ := hd
    show lookupId ((if k = i then (k, g r) else (k, r)) ::
        rest.map (fun p => if p.1 = i then (p.1, g p.2) else p)) j = _
    by_cases hki : k = i
    · rw [if_pos hki]
      by_cases hkj : k = j
      · have hij : i = j := hki.symm.trans hkj
        rw [lookupId_cons, if_pos hkj, if_pos hij, lookupId_cons, if_pos hkj]
        rfl
      · have hij : ¬i = j := fun h => hkj (hki.trans h)
        rw [lookupId_cons, if_neg hkj, if_neg hij, lookupId_cons, if_neg hkj]
        have hrest := ih
        rw [if_neg hij] at hrest
        exact hrest
    · rw [if_neg hki]
      by_cases hkj : k = j
      · have hij : ¬i = j := fun h => hki (hkj.trans h.symm)
        rw [lookupId_cons, if_pos hkj, if_neg hij, lookupId_cons, if_pos hkj]
      · by_cases hij : i = j
        · rw [lookupId_cons, if_neg hkj, if_pos hij, lookupId_cons, if_neg hkj]
          have hrest := ih
          rw [if_pos hij] at hrest
          exact hrest
        · rw [lookupId_cons, if_neg hkj, if_neg hij, lookupId_cons, if_neg hkj]
          have hrest := ih
          rw [if_neg hij] at hrest
          exact hrest

/-- The per-key update of upsertOne, specialised to the partial update of
save_listings. -/
theorem lookupId_map_updateRec (st : Store) (l : Listing) (now : Nat) (j : String) :
    lookupId (st.map (fun p => if p.1 = l.id then (p.1, updateRec p.2 l now) else p)) j =
      if l.id = j then (lookupId st j).map (fun r0 => updateRec r0 l now)
      else lookupId st j :=
  lookupId_map_upd st l.id j (fun r0 => updateRec r0 l now)

/-- Upserting an absent id stores the fresh row under that id. -/
theorem upsertOne_lookup_self_insert (st : Store) (l : Listing) (now : Nat)
    (h : lookupId st l.id = none) :
    lookupId (upsertOne st l now) l.id = some (freshRec l now) := by
  simp [upsertOne, h, lookupId_append_single]

/-- Upserting a present id replaces its row by the partial update. -/
theorem upsertOne_lookup_self_update (st : Store) (l : Listing) (now : Nat)
    (r : StoredRec) (h : lookupId st l.id = some r) :
    lookupId (upsertOne st l now) l.id = some (updateRec r l now) := by
  simp only [upsertOne, h]
  rw [lookupId_map_updateRec, if_pos rfl, h]
  rfl

/-- Upserting never touches the row of any other id. -/
theorem upsertOne_lookup_other (st : Store) (l : Listing) (now : Nat) (j : String)
    (h : j ≠ l.id) : lookupId (upsertOne st l now) j = lookupId st j := by
  cases hl : lookupId st l.id with
  | none =>
    simp only [upsertOne, hl, lookupId_append_single]
    cases hj : lookupId st j with
    | some r0 => rfl
    | none =>
      have hij : ¬l.id = j := fun hh => h hh.symm
      simp [hij]
  | some r =>
    simp only [upsertOne, hl]
    rw [lookupId_map_updateRec, if_neg (fun hh => h hh.symm)]

/-- After one upsert the upserted id is present with the call
timestamp. -/
theorem upsertOne_lastSeen_self (st : Store) (l : Listing) (now : Nat) :
    ∃ r, lookupId (upsertOne st l now) l.id = some r ∧ r.last_seen = now := by
  cases hl : lookupId st l.id with
  | none => exact ⟨freshRec l now, upsertOne_lookup_self_insert st l now hl, rfl⟩
  | some r0 => exact ⟨updateRec r0 l now, upsertOne_lookup_self_update st l now r0 hl, rfl⟩

/-- A row whose last-seen already equals the call timestamp keeps it
through any upsert of that call. -/
theorem upsertOne_keeps_lastSeen (st : Store) (l : Listing) (now : Nat) (j : String)
    (r : StoredRec) (hj : lookupId st j = some r) (hr : r.last_seen = now) :
    ∃ r2, lookupId (upsertOne st l now) j = some r2 ∧ r2.last_seen = now := by
  by_cases h : j = l.id
  · subst h
    exact ⟨updateRec r l now, upsertOne_lookup_self_update st l now r hj, rfl⟩
  · exact ⟨r, by rw [upsertOne_lookup_other st l now j h, hj], hr⟩

/-- Last-seen stamping survives the rest of a save_listings pass. -/
theorem save_keeps_lastSeen (xs : List Listing) :
    ∀ (st : Store) (now : Nat) (j : String) (r : StoredRec),
      lookupId st j = some r → r.last_seen = now →
      ∃ r2, lookupId (save_listings st xs now) j = some r2 ∧ r2.last_seen = now := by
  induction xs with
  | nil => intro st now j r hj hr; exact ⟨r, hj, hr⟩
  | cons x xs ih =>
    intro st now j r hj hr
    rcases upsertOne_keeps_lastSeen st x now j r hj hr with ⟨r2, h2, hr2⟩
    exact ih (upsertOne st x now) now j r2 h2 hr2

/-- After save_listings, every id of the batch carries the call
timestamp as its last-seen time. -/
theorem save_lastSeen_mem (xs : List Listing) :
    ∀ (st : Store) (now : Nat), ∀ l ∈ xs,
      ∃ r, lookupId (save_listings st xs now) l.id = some r ∧ r.last_seen = now := by
  induction xs with
  | nil => intro st now l hl; cases hl
  | cons x xs ih =>
    intro st now l hl
    rcases List.mem_cons.mp hl with rfl | hl
    · rcases upsertOne_lastSeen_self st l now with ⟨r, hr, hlast⟩
      exact save_keeps_lastSeen xs (upsertOne st l now) now l.id r hr hlast
    · exact ih (upsertOne st x now) now l hl

/-- One upsert never changes the first-seen time of a present row. -/
theorem upsertOne_keeps_firstSeen (st : Store) (l : Listing) (t : Nat) (j : String)
    (r : StoredRec) (hj : lookupId st j = some r) :
    ∃ r2, lookupId (upsertOne st l t) j = some r2 ∧ r2.first_seen = r.first_seen := by
  by_cases h : j = l.id
  · subst h
    exact ⟨updateRec r l t, upsertOne_lookup_self_update st l t r hj, rfl⟩
  · exact ⟨r, by rw [upsertOne_lookup_other st l t j h, hj], rfl⟩

/-- A save_listings pass never changes the first-seen time of a row that
was already present. -/
theorem save_keeps_firstSeen (xs : List Listing) :
    ∀ (st : Store) (t : Nat) (j : String) (r : StoredRec),
      lookupId st j = some r →
      ∃ r2, lookupId (save_listings st xs t) j = some r2
        ∧ r2.first_seen = r.first_seen := by
  induction xs with
  | nil => intro st t j r hj; exact ⟨r, hj, rfl⟩
  | cons x xs ih =>
    intro st t j r hj
    rcases upsertOne_keeps_firstSeen st x t j r hj with ⟨r2, h2, hf2⟩
    rcases ih (upsertOne st x t) t j r2 h2 with ⟨r3, h3, hf3⟩
    exact ⟨r3, h3, by rw [hf3, hf2]⟩

/-- C3: an upsert of an absent id inserts a row with both timestamps set
to the observation time and every column populated from the listing; an
upsert of a present id yields exactly the partial update (new last-seen,
price and net price; first-seen and every other column of that row
unchanged) and leaves every other id's row untouched; and upserting the
same batch twice with a later timestamp leaves first-seen unchanged while
advancing last-seen from the first to the second timestamp. -/
theorem c3_save_listings_spec (st : Store) (l : Listing) (now : Nat)
    (batch : List Listing) (t1 t2 : Nat) :
    (lookupId st l.id = none →
      lookupId (upsertOne st l now) l.id = some (freshRec l now)
      ∧ (freshRec l now).first_seen = now ∧ (freshRec l now).last_seen = now
      ∧ (freshRec l now).address = l.address ∧ (freshRec l now).neighborhood = l.neighborhood
      ∧ (freshRec l now).price = l.price ∧ (freshRec l now).net_price = l.net_price
      ∧ (freshRec l now).beds = l.beds ∧ (freshRec l now).baths = l.baths
      ∧ (freshRec l now).sqft = l.sqft ∧ (freshRec l now).url = l.url
      ∧ (freshRec l now).has_laundry = l.has_laundry
      ∧ (freshRec l now).is_no_fee = l.is_no_fee
      ∧ (freshRec l now).raw_data = l.raw_text)
    ∧ (∀ r, lookupId st l.id = some r →
        lookupId (upsertOne st l now) l.id = some (updateRec r l now)
        ∧ (updateRec r l now).last_seen = now
        ∧ (updateRec r l now).price = l.price
        ∧ (updateRec r l now).net_price = l.net_price
        ∧ (updateRec r l now).first_seen = r.first_seen
        ∧ (updateRec r l now).address = r.address
        ∧ (updateRec r l now).neighborhood = r.neighborhood
        ∧ (updateRec r l now).beds = r.beds
        ∧ (updateRec r l now).baths = r.baths
        ∧ (updateRec r l now).sqft = r.sqft
        ∧ (updateRec r l now).url = r.url
        ∧ (updateRec r l now).has_laundry = r.has_laundry
        ∧ (updateRec r l now).is_no_fee = r.is_no_fee
        ∧ (updateRec r l now).raw_data = r.raw_data)
    ∧ (∀ j, j ≠ l.id → lookupId (upsertOne st l now) j = lookupId st j)
    ∧ (t1 < t2 → ∀ lb2 ∈ batch,
        ∃ r1 r2,
          lookupId (save_listings st batch t1) lb2.id = some r1
          ∧ lookupId (save_listings (save_listings st batch t1) batch t2) lb2.id = some r2
          ∧ r1.last_seen = t1 ∧ r2.last_seen = t2
          ∧ r2.first_seen = r1.first_seen
          ∧ r1.last_seen < r2.last_seen) := by
  refine ⟨fun h => ⟨upsertOne_lookup_self_insert st l now h, rfl, rfl, rfl, rfl, rfl,
      rfl, rfl, rfl, rfl, rfl, rfl, rfl, rfl⟩,
    fun r h => ⟨upsertOne_lookup_self_update st l now r h, rfl, rfl, rfl, rfl, rfl,
      rfl, rfl, rfl, rfl, rfl, rfl, rfl, rfl⟩,
    fun j hj => upsertOne_lookup_other st l now j hj,
    fun ht lb2 hmem => ?_⟩
  rcases save_lastSeen_mem batch st t1 lb2 hmem with ⟨r1, h1, hl1⟩
  rcases save_lastSeen_mem batch (save_listings st batch t1) t2 lb2 hmem with ⟨r2, h2, hl2⟩
  rcases save_keeps_firstSeen batch (save_listings st batch t1) t2 lb2.id r1 h1
    with ⟨rmid, hmid, hfmid⟩
  rw [hmid] at h2
  cases h2
  exact ⟨r1, r2, h1, hmid, hl1, hl2, hfmid, by rw [hl1, hl2]; exact ht⟩

/-- Concrete instantiation of the C3 theorem: inserting into the empty
store yields the fresh row, and a double save of the same two-listing
batch with timestamps 5 and 9 keeps first-seen and advances
last-seen. -/
theorem c3_save_listings_witness :
    lookupId (upsertOne ([] : Store) la 5) la.id = some (freshRec la 5)
    ∧ (∃ r1 r2,
        lookupId (save_listings ([] : Store) [la, lb] 5) la.id = some r1
        ∧ lookupId (save_listings (save_listings ([] : Store) [la, lb] 5) [la, lb] 9)
            la.id = some r2
        ∧ r1.last_seen = 5 ∧ r2.last_seen = 9
        ∧ r2.first_seen = r1.first_seen
        ∧ r1.last_seen < r2.last_seen) := by
  have h := c3_save_listings_spec ([] : Store) la 5 [la, lb] 5 9
  exact ⟨(h.1 rfl).1, h.2.2.2 (by decide) la (by decide)⟩

/-! ## Claim C6 -/

/-- takeWhile and dropWhile of a run followed by a remainder that does
not start with a run character. -/
theorem run_take_drop (p : Char → Bool) (s post : List Char)
    (hs : ∀ c ∈ s, p c = true) (hpost : ∀ h t, post = h :: t → p h = false) :
    (s ++ post).takeWhile p = s ∧ (s ++ post).dropWhile p = post := by
  induction s with
  | nil =>
    cases post with
    | nil => exact ⟨rfl, rfl⟩
    | cons h t =>
      have hh := hpost h t rfl
      simp [List.takeWhile_cons, List.dropWhile_cons, hh]
  | cons c s ih =>
    have hc : p c = true := hs c (List.mem_cons_self c s)
    have hrest := ih (fun c2 h2 => hs c2 (List.mem_cons_of_mem c h2))
    simp [List.takeWhile_cons, List.dropWhile_cons, hc, hrest.1, hrest.2]

/-- Spec-side rendering of a trailing numeric path segment in the format
stated by claim C6: digits bounded by a path separator and either a
query-string start or the end of the string (the Python end-of-string
anchor also matches before one trailing newline). -/
def validNumSeg (cs : List Char) (s : List Char) : Prop :=
  ∃ pre post, cs = pre ++ '/' :: (s ++ post) ∧ s ≠ []
    ∧ (∀ c ∈ s, c.isDigit = true)
    ∧ (post = [] ∨ post = ['\n'] ∨ ∃ q, post = '?' :: q)

/-- Scanner soundness: a captured segment really is a trailing numeric
path segment in the claim's format. -/
theorem findUrlNum_sound (cs : List Char) :
    ∀ s, findUrlNum cs = some s → validNumSeg cs s := by
  induction cs with
  | nil => intro s h; simp [findUrlNum] at h
  | cons c cs ih =>
    intro s h
    have hlift : (∃ s2, findUrlNum cs = some s2 ∧ s2 = s) → validNumSeg (c :: cs) s := by
      rintro ⟨s2, h2, rfl⟩
      obtain ⟨pre, post, hcs, hs, hdig, hpost⟩ := ih s2 h2
      exact ⟨c :: pre, post, by rw [List.cons_append, hcs], hs, hdig, hpost⟩
    rw [findUrlNum] at h
    by_cases hc : (c == '/') = true
    · rw [if_pos hc] at h
      by_cases hcond : (!(cs.takeWhile Char.isDigit).isEmpty &&
          ((cs.dropWhile Char.isDigit).isEmpty || cs.dropWhile Char.isDigit == ['\n'] ||
            (cs.dropWhile Char.isDigit).head? == some '?')) = true
      · rw [if_pos hcond] at h
        cases h
        have hceq : c = '/' := by simpa using hc
        simp only [Bool.and_eq_true, Bool.or_eq_true] at hcond
        obtain ⟨hrun, hrest⟩ := hcond
        refine ⟨[], cs.dropWhile Char.isDigit, ?_, ?_, ?_, ?_⟩
        · rw [hceq, List.nil_append, List.takeWhile_append_dropWhile]
        · intro hemp
          rw [hemp] at hrun
          exact absurd hrun (by simp)
        · intro c2 h2
          exact List.mem_takeWhile_imp h2
        · rcases hrest with hrest | hq
          · rcases hrest with hemp | hnl
            · exact Or.inl (by simpa using hemp)
            · exact Or.inr (Or.inl (by simpa using hnl))
          · refine Or.inr (Or.inr ?_)
            cases hrw : cs.dropWhile Char.isDigit with
            | nil => rw [hrw] at hq; simp at hq
            | cons h2 t2 =>
              rw [hrw] at hq
              have : h2 = '?' := by simpa using hq
              exact ⟨t2, by rw [this]⟩
      · rw [if_neg hcond] at h
        exact hlift ⟨s, h, rfl⟩
    · rw [if_neg hc] at h
      exact hlift ⟨s, h, rfl⟩

/-- A successful scan of a suffix stays successful when one character is
prepended. -/
theorem findUrlNum_cons_ex (c : Char) (cs : List Char)
    (h : ∃ s, findUrlNum cs = some s) : ∃ s, findUrlNum (c :: cs) = some s := by
  simp only [findUrlNum]
  split
  · split
    · exact ⟨_, rfl⟩
    · exact h
  · exact h

/-- The scanner succeeds when started exactly at a valid segment. -/
theorem findUrlNum_at_seg (s post : List Char) (hs : s ≠ [])
    (hdig : ∀ c ∈ s, c.isDigit = true)
    (hpost : post = [] ∨ post = ['\n'] ∨ ∃ q, post = '?' :: q) :
    findUrlNum ('/' :: (s ++ post)) = some s := by
  have hpd : ∀ h t, post = h :: t → h.isDigit = false := by
    intro h t hht
    rcases hpost with rfl | rfl | ⟨q, rfl⟩
    · cases hht
    · cases hht; decide
    · cases hht; decide
  obtain ⟨hts, hds⟩ := run_take_drop Char.isDigit s post hdig hpd
  have hrun : s.isEmpty = false := by
    cases s with
    | nil => exact absurd rfl hs
    | cons a t => rfl
  simp only [findUrlNum, hts, hds]
  rw [if_pos (by decide), if_pos]
  rw [hrun]
  rcases hpost with rfl | rfl | ⟨q, rfl⟩ <;> simp

/-- Scanner completeness: a URL containing a valid segment always yields
a captured segment. -/
theorem findUrlNum_complete (cs : List Char) (s : List Char) (h : validNumSeg cs s) :
    ∃ s2, findUrlNum cs = some s2 := by
  obtain ⟨pre, post, hcs, hs, hdig, hpost⟩ := h
  subst hcs
  induction pre with
  | nil => exact ⟨s, findUrlNum_at_seg s post hs hdig hpost⟩
  | cons c pre ih => exact findUrlNum_cons_ex c _ ih

/-- The scanner succeeds exactly on the URLs that contain a valid
segment. -/
theorem validNumSeg_iff (cs : List Char) :
    (∃ s, validNumSeg cs s) ↔ (findUrlNum cs).isSome = true := by
  constructor
  · rintro ⟨s, h⟩
    rcases findUrlNum_complete cs s h with ⟨s2, h2⟩
    simp [h2]
  · intro h
    rcases Option.isSome_iff_exists.mp h with ⟨s, hs⟩
    exact ⟨s, findUrlNum_sound cs s hs⟩

/-- The digest has sixteen bytes. -/
theorem md5Bytes_length (msg : List Nat) : (md5Bytes msg).length = 16 := by
  rw [md5Bytes]
  rcases md5Chunks (0x67452301, 0xefcdab89, 0x98badcfe, 0x10325476) (md5Pad msg)
    with ⟨a, b, c, d⟩
  simp [le4]

/-- Every digest byte is below 256. -/
theorem md5Bytes_lt (msg : List Nat) : ∀ b ∈ md5Bytes msg, b < 256 := by
  rw [md5Bytes]
  rcases md5Chunks (0x67452301, 0xefcdab89, 0x98badcfe, 0x10325476) (md5Pad msg)
    with ⟨a, b, c, d⟩
  intro x hx
  simp [le4] at hx
  rcases hx with h | h | h | h <;> rcases h with h | h | h | h <;> omega

/-- The hexdigest pairing doubles the byte count. -/
theorem hexPairs_length (l : List Nat) :
    (l.foldr (fun b acc => hexChar (b / 16) :: hexChar (b % 16) :: acc) []).length
      = 2 * l.length := by
  induction l with
  | nil => rfl
  | cons b l ih => simp [List.foldr, ih]; ring

/-- The hexdigest has 32 characters. -/
theorem md5Hex_length (s : String) : (md5Hex s).length = 32 := by
  rw [md5Hex, hexPairs_length, md5Bytes_length]

/-- Characters of the hexdigest come from hexChar on values below 16. -/
theorem md5Hex_mem (s : String) : ∀ c ∈ md5Hex s, ∃ n, n < 16 ∧ c = hexChar n := by
  rw [md5Hex]
  have hb := md5Bytes_lt (strBytes s)
  revert hb
  generalize md5Bytes (strBytes s) = l
  induction l with
  | nil => intro hb c hc; simp at hc
  | cons b l ih =>
    intro hb c hc
    simp only [List.foldr, List.mem_cons] at hc
    rcases hc with rfl | hc
    · exact ⟨b / 16, by have := hb b (List.mem_cons_self b l); omega, rfl⟩
    · rcases hc with rfl | hc
      · exact ⟨b % 16, by omega, rfl⟩
      · exact ih (fun x hx => hb x (List.mem_cons_of_mem b hx)) c hc

/-- Each hexChar value below 16 is a decimal digit or one of the
lowercase letters a to f. -/
theorem hexChar_range (n : Nat) (h : n < 16) :
    (hexChar n).isDigit = true ∨ (97 ≤ (hexChar n).toNat ∧ (hexChar n).toNat ≤ 102) := by
  interval_cases n <;> decide

/-- Ids built from the constant tag and distinct tails differ. -/
theorem se_mk_ne (s1 s2 : List Char) (h : s1 ≠ s2) :
    String.mk (('s' :: 'e' :: '_' :: []) ++ s1)
      ≠ String.mk (('s' :: 'e' :: '_' :: []) ++ s2) := by
  intro heq
  apply h
  have hdata : ('s' :: 'e' :: '_' :: []) ++ s1 = ('s' :: 'e' :: '_' :: []) ++ s2 :=
    congrArg String.data heq
  exact List.append_cancel_left hdata

/-- C6: generate_listing_id is a pure function of the URL (determinism is
immediate in the embedding); whenever the URL contains a trailing numeric
path segment in the claim's format, the id is the constant tag followed
by the digits of such a segment; ids captured from distinct digit runs
are distinct; and a URL with no such segment gets the constant tag plus
the first twelve characters of the 32-character MD5 hexdigest, every one
of them a lowercase hexadecimal character. -/
theorem c6_generate_listing_id_spec (url u2 : String) :
    (generate_listing_id url = generate_listing_id url)
    ∧ ((∃ s, validNumSeg url.data s) →
        ∃ s, validNumSeg url.data s
          ∧ generate_listing_id url = String.mk (('s' :: 'e' :: '_' :: []) ++ s))
    ∧ (∀ s1 s2, findUrlNum url.data = some s1 → findUrlNum u2.data = some s2 →
        s1 ≠ s2 → generate_listing_id url ≠ generate_listing_id u2)
    ∧ ((¬ ∃ s, validNumSeg url.data s) →
        generate_listing_id url =
          String.mk (('s' :: 'e' :: '_' :: []) ++ (md5Hex url).take 12)
        ∧ (md5Hex url).length = 32
        ∧ ((md5Hex url).take 12).length = 12
        ∧ (∀ c ∈ (md5Hex url).take 12,
            c.isDigit = true ∨ (97 ≤ c.toNat ∧ c.toNat ≤ 102))) := by
  refine ⟨rfl, ?_, ?_, ?_⟩
  · intro hex
    have hsome := (validNumSeg_iff url.data).mp hex
    rcases Option.isSome_iff_exists.mp hsome with ⟨s, hs⟩
    exact ⟨s, findUrlNum_sound url.data s hs, by simp only [generate_listing_id, hs]⟩
  · intro s1 s2 h1 h2 hne
    simp only [generate_listing_id, h1, h2]
    exact se_mk_ne s1 s2 hne
  · intro hnone
    have hn : findUrlNum url.data = none := by
      cases hcase : findUrlNum url.data with
      | none => rfl
      | some s =>
        exact absurd ((validNumSeg_iff url.data).mpr (by simp [hcase])) hnone
    refine ⟨by simp only [generate_listing_id, hn], md5Hex_length url, ?_, ?_⟩
    · simp [List.length_take, md5Hex_length]
    · intro c hc
      have hc2 : c ∈ md5Hex url := (List.take_sublist 12 (md5Hex url)).subset hc
      rcases md5Hex_mem url c hc2 with ⟨n, hn16, rfl⟩
      exact hexChar_range n hn16

/-- Concrete instantiation of the C6 theorem: the trailing number of the
rental URL is captured and gives a distinct id from another numeric URL,
and a URL with no numeric segment takes the hash branch with a
twelve-character digest prefix. -/
theorem c6_generate_listing_id_witness :
    (∃ s, validNumSeg ("https://streeteasy.com/rental/123456").data s
      ∧ generate_listing_id ("https://streeteasy.com/rental/123456") =
          String.mk (('s' :: 'e' :: '_' :: []) ++ s))
    ∧ generate_listing_id ("https://streeteasy.com/rental/123456")
        ≠ generate_listing_id ("/1?/2")
    ∧ generate_listing_id ("abc") =
        String.mk (('s' :: 'e' :: '_' :: []) ++ (md5Hex "abc").take 12)
    ∧ ((md5Hex "abc").take 12).length = 12 := by
  have h1 := c6_generate_listing_id_spec ("https://streeteasy.com/rental/123456") ("/1?/2")
  have h2 := c6_generate_listing_id_spec ("abc") ("abc")
  have habc : ¬ ∃ s, validNumSeg ("abc").data s := by
    intro hex
    exact absurd ((validNumSeg_iff ("abc").data).mp hex) (by decide)
  refine ⟨h1.2.1 ((validNumSeg_iff _).mpr (by decide)), ?_, (h2.2.2.2 habc).1,
    (h2.2.2.2 habc).2.2.1⟩
  exact h1.2.2.1 ("123456".data) (['1']) (by decide) (by decide) (by decide)

/-! ## Claim C8 -/

/-- Regex whitespace is never a money character. -/
theorem isPySpace_not_money (c : Char) (h : isPySpace c = true) : moneyClass c = false := by
  simp only [isPySpace, Bool.or_eq_true, beq_iff_eq] at h
  rcases h with ((((h | h) | h) | h) | h) | h <;> subst h <;> decide

/-- Spec-side rendering of the dollar-then-net-effective phrase of claim
C8, amended to the shape the regex can capture: a dollar sign, a nonempty
run of digits and commas, optional whitespace, the word net, optional
whitespace, the word effective. -/
def specNetPhrase (cs : List Char) (run : List Char) : Prop :=
  ∃ pre m1 m2 post,
    cs = pre ++ '$' :: (run ++ (m1 ++ ('n' :: 'e' :: 't' ::
      (m2 ++ ("effective".data ++ post)))))
    ∧ run ≠ [] ∧ (∀ c ∈ run, moneyClass c = true)
    ∧ (∀ c ∈ m1, isPySpace c = true) ∧ (∀ c ∈ m2, isPySpace c = true)

/-- Scanner soundness: a captured run really sits inside a
dollar-then-net-effective phrase. -/
theorem searchNetEff_sound (cs : List Char) :
    ∀ run, searchNetEff cs = some run → specNetPhrase cs run := by
  induction cs with
  | nil => intro run h; simp [searchNetEff] at h
  | cons c cs ih =>
    intro run h
    have hlift : searchNetEff cs = some run → specNetPhrase (c :: cs) run := by
      intro h2
      obtain ⟨pre, m1, m2, post, hcs, hne, hm, hs1, hs2⟩ := ih run h2
      exact ⟨c :: pre, m1, m2, post, by rw [List.cons_append, hcs], hne, hm, hs1, hs2⟩
    simp only [searchNetEff] at h
    by_cases hc : (c == '$') = true
    · rw [if_pos hc] at h
      by_cases hemp : (cs.takeWhile moneyClass).isEmpty = true
      · rw [if_pos hemp] at h
        exact hlift h
      · rw [if_neg hemp] at h
        by_cases hnet : (("net".data).isPrefixOf
            ((cs.dropWhile moneyClass).dropWhile isPySpace)) = true
        · rw [if_pos hnet] at h
          by_cases heff : (("effective".data).isPrefixOf
              ((((cs.dropWhile moneyClass).dropWhile isPySpace).drop 3).dropWhile
                isPySpace)) = true
          · rw [if_pos heff] at h
            cases h
            have hceq : c = '$' := by simpa using hc
            obtain ⟨t, ht⟩ := List.isPrefixOf_iff_prefix.mp hnet
            have hdrop : ((cs.dropWhile moneyClass).dropWhile isPySpace).drop 3 = t := by
              rw [← ht]
              rfl
            rw [hdrop] at heff
            obtain ⟨post, hpost⟩ := List.isPrefixOf_iff_prefix.mp heff
            refine ⟨[], (cs.dropWhile moneyClass).takeWhile isPySpace,
              t.takeWhile isPySpace, post, ?_, ?_, ?_, ?_, ?_⟩
            · have e3 : t.takeWhile isPySpace ++ ("effective".data ++ post) = t := by
                rw [hpost]
                exact List.takeWhile_append_dropWhile isPySpace t
              have e2 : 'n' :: 'e' :: 't' ::
                  (t.takeWhile isPySpace ++ ("effective".data ++ post)) =
                  (cs.dropWhile moneyClass).dropWhile isPySpace := by
                rw [e3, ← ht]
                rfl
              have e1 : (cs.dropWhile moneyClass).takeWhile isPySpace ++
                  ('n' :: 'e' :: 't' ::
                    (t.takeWhile isPySpace ++ ("effective".data ++ post))) =
                  cs.dropWhile moneyClass := by
                rw [e2]
                exact List.takeWhile_append_dropWhile isPySpace (cs.dropWhile moneyClass)
              have e0 : cs.takeWhile moneyClass ++
                  ((cs.dropWhile moneyClass).takeWhile isPySpace ++
                    ('n' :: 'e' :: 't' ::
                      (t.takeWhile isPySpace ++ ("effective".data ++ post)))) = cs := by
                rw [e1]
                exact List.takeWhile_append_dropWhile moneyClass cs
              rw [List.nil_append, hceq, e0]
            · intro hT
              rw [hT] at hemp
              exact hemp rfl
            · intro c2 h2
              exact List.mem_takeWhile_imp h2
            · intro c2 h2
              exact List.mem_takeWhile_imp h2
            · intro c2 h2
              exact List.mem_takeWhile_imp h2
          · rw [if_neg heff] at h
            exact hlift h
        · rw [if_neg hnet] at h
          exact hlift h
    · rw [if_neg hc] at h
      exact hlift h

/-- A successful net-effective scan of a suffix stays successful when one
character is prepended. -/
theorem searchNetEff_cons_ex (c : Char) (cs : List Char)
    (h : ∃ run2, searchNetEff cs = some run2) :
    ∃ run2, searchNetEff (c :: cs) = some run2 := by
  simp only [searchNetEff]
  split
  · split
    · exact h
    · split
      · split
        · exact ⟨_, rfl⟩
        · exact h
      · exact h
  · exact h

/-- The scanner succeeds when started exactly at a
dollar-then-net-effective phrase. -/
theorem searchNetEff_at (run m1 m2 post : List Char) (hr : run ≠ [])
    (hrm : ∀ c ∈ run, moneyClass c = true) (h1 : ∀ c ∈ m1, isPySpace c = true)
    (h2 : ∀ c ∈ m2, isPySpace c = true) :
    searchNetEff ('$' :: (run ++ (m1 ++ ('n' :: 'e' :: 't' ::
      (m2 ++ ("effective".data ++ post)))))) = some run := by
  have hrhead : ∀ h t, (m1 ++ ('n' :: 'e' :: 't' ::
      (m2 ++ ("effective".data ++ post)))) = h :: t → moneyClass h = false := by
    intro h t hht
    cases m1 with
    | nil =>
      rw [List.nil_append] at hht
      injection hht with hh htl
      subst hh
      decide
    | cons a m1t =>
      rw [List.cons_append] at hht
      injection hht with hh htl
      subst hh
      exact isPySpace_not_money a (h1 a (List.mem_cons_self a m1t))
  obtain ⟨ht1, hd1⟩ := run_take_drop moneyClass run _ hrm hrhead
  have hnspace : ∀ h t, ('n' :: 'e' :: 't' ::
      (m2 ++ ("effective".data ++ post))) = h :: t → isPySpace h = false := by
    intro h t hht
    injection hht with hh htl
    subst hh
    decide
  obtain ⟨ht2, hd2⟩ := run_take_drop isPySpace m1 _ h1 hnspace
  have hespace : ∀ h t, ("effective".data ++ post) = h :: t → isPySpace h = false := by
    intro h t hht
    have hef : ("effective".data ++ post) = 'e' :: ("ffective".data ++ post) := rfl
    rw [hef] at hht
    injection hht with hh htl
    subst hh
    decide
  obtain ⟨ht3, hd3⟩ := run_take_drop isPySpace m2 _ h2 hespace
  have hrun : run.isEmpty = false := by
    cases run with
    | nil => exact absurd rfl hr
    | cons a t => rfl
  simp only [searchNetEff]
  rw [if_pos (by decide), ht1, hd1, hrun]
  rw [if_neg (by decide)]
  rw [hd2]
  have hnetpre : ((['n', 'e', 't'] : List Char).isPrefixOf
      ('n' :: 'e' :: 't' :: (m2 ++ ("effective".data ++ post)))) = true :=
    List.isPrefixOf_iff_prefix.mpr ⟨m2 ++ ("effective".data ++ post), rfl⟩
  rw [if_pos hnetpre]
  simp only [List.drop_succ_cons, List.drop_zero, hd3]
  have heffpre : ((['e', 'f', 'f', 'e', 'c', 't', 'i', 'v', 'e'] : List Char).isPrefixOf
      ("effective".data ++ post)) = true :=
    List.isPrefixOf_iff_prefix.mpr ⟨post, rfl⟩
  rw [if_pos heffpre]

/-- Scanner completeness: a text containing a dollar-then-net-effective
phrase always yields a captured run. -/
theorem specNetPhrase_complete (cs : List Char) (run : List Char)
    (h : specNetPhrase cs run) : ∃ run2, searchNetEff cs = some run2 := by
  obtain ⟨pre, m1, m2, post, hcs, hr, hm, h1, h2⟩ := h
  subst hcs
  induction pre with
  | nil => exact ⟨run, searchNetEff_at run m1 m2 post hr hm h1 h2⟩
  | cons c pre ih => exact searchNetEff_cons_ex c _ ih

/-- A run of characters all satisfying the predicate is its own
takeWhile. -/
theorem takeWhile_all (p : Char → Bool) (l : List Char) (h : ∀ c ∈ l, p c = true) :
    l.takeWhile p = l := by
  induction l with
  | nil => rfl
  | cons c t ih =>
    have hc := h c (List.mem_cons_self c t)
    simp [List.takeWhile_cons, hc, ih (fun c2 h2 => h c2 (List.mem_cons_of_mem c h2))]

/-- The first digit run of an all-digit list is the list itself. -/
theorem firstDigitRun_all (ds : List Char) (h : ∀ c ∈ ds, c.isDigit = true) :
    firstDigitRun ds = if ds.isEmpty then none else some ds := by
  cases ds with
  | nil => rfl
  | cons c t =>
    have hc := h c (List.mem_cons_self c t)
    simp [firstDigitRun, hc, takeWhile_all Char.isDigit t
      (fun c2 h2 => h c2 (List.mem_cons_of_mem c h2))]

/-- parse_price on a nonempty digits-and-commas run: strip the commas and
value the remaining digits, or nothing when only commas were captured. -/
theorem parse_price_money (run : List Char) (hne : run ≠ [])
    (hm : ∀ c ∈ run, moneyClass c = true) :
    parse_price (String.mk run) =
      (if (run.filter Char.isDigit).isEmpty then none
       else some (digitsVal (run.filter Char.isDigit))) := by
  have hne2 : run.isEmpty = false := by
    cases run with
    | nil => exact absurd rfl hne
    | cons a t => rfl
  have hfe : run.filter (fun c => c != ',') = run.filter Char.isDigit := by
    apply List.filter_congr
    intro c hc
    have hmc := hm c hc
    simp only [moneyClass, Bool.or_eq_true] at hmc
    rcases hmc with hd | hcm
    · rw [hd]
      have hcc : ¬c = ',' := by
        intro he
        rw [he] at hd
        exact absurd hd (by decide)
      simp [hcc]
    · have hce : c = ',' := by simpa using hcm
      subst hce
      rfl
  have hdata : (String.mk run).data = run := rfl
  simp only [parse_price, hdata, hne2, hfe]
  rw [if_neg Bool.false_ne_true]
  rw [firstDigitRun_all (run.filter Char.isDigit) (fun c hc => List.of_mem_filter hc)]
  by_cases hfil : (run.filter Char.isDigit).isEmpty = true
  · rw [if_pos hfil, if_pos hfil]
  · rw [if_neg hfil, if_neg hfil]

/-- C8 as stated is false on this input: the text contains no digit at
all, hence no dollar amount, so the claim requires the net price to fall
back to the nominal 4000; but the code's regex matches the comma run
after the dollar sign, parses no digits out of it, and stores an absent
net price instead. -/
theorem c8_counterexample :
    (∀ c ∈ ("$, net effective").data, c.isDigit = false)
    ∧ computeNetPrice ("$, net effective") (some 4000) = none
    ∧ ¬ computeNetPrice ("$, net effective") (some 4000) = some 4000 := by
  refine ⟨by decide, by decide, by decide⟩

/-- C8 amended: when the lowercased fragment text contains no phrase made
of a dollar sign, a nonempty digits-and-commas run, and then the words
net and effective, the net price equals the nominal price; when the
scanner captures such a run, that run sits in such a phrase and the net
price is parse_price of the run, namely the run's digit value when a
digit is present and absent when the run is commas only; and the scanner
captures a run exactly when such a phrase is present. -/
theorem c8_net_price_spec (text : String) (price : Option Nat) :
    ((¬ ∃ run, specNetPhrase (lowerData text) run) → computeNetPrice text price = price)
    ∧ (∀ run, searchNetEff (lowerData text) = some run →
        specNetPhrase (lowerData text) run
        ∧ computeNetPrice text price = parse_price (String.mk run)
        ∧ ((∃ c ∈ run, c.isDigit = true) →
            computeNetPrice text price = some (digitsVal (run.filter Char.isDigit)))
        ∧ ((∀ c ∈ run, c.isDigit = false) → computeNetPrice text price = none))
    ∧ ((∃ run, specNetPhrase (lowerData text) run) →
        ∃ run, searchNetEff (lowerData text) = some run) := by
  refine ⟨?_, ?_, ?_⟩
  · intro hno
    cases hs : searchNetEff (lowerData text) with
    | none => simp only [computeNetPrice, hs]
    | some run => exact absurd ⟨run, searchNetEff_sound (lowerData text) run hs⟩ hno
  · intro run hs
    have hphrase := searchNetEff_sound (lowerData text) run hs
    obtain ⟨pre, m1, m2, post, hcs, hne, hm, hsp1, hsp2⟩ := hphrase
    have hpp := parse_price_money run hne hm
    have hcompute : computeNetPrice text price = parse_price (String.mk run) := by
      simp only [computeNetPrice, hs]
    refine ⟨⟨pre, m1, m2, post, hcs, hne, hm, hsp1, hsp2⟩, hcompute, ?_, ?_⟩
    · rintro ⟨c, hcm, hcd⟩
      have hcf : c ∈ run.filter Char.isDigit := List.mem_filter.mpr ⟨hcm, hcd⟩
      have hemp : (run.filter Char.isDigit).isEmpty = false := by
        cases hfil : run.filter Char.isDigit with
        | nil => rw [hfil] at hcf; cases hcf
        | cons a t => rfl
      rw [hcompute, hpp]
      simp only [hemp]
      rw [if_neg Bool.false_ne_true]
    · intro hall
      have hemp : (run.filter Char.isDigit).isEmpty = true := by
        cases hfil : run.filter Char.isDigit with
        | nil => rfl
        | cons a t =>
          have hmem : a ∈ run.filter Char.isDigit := by
            rw [hfil]
            exact List.mem_cons_self a t
          have hd := List.of_mem_filter hmem
          have hcm := List.mem_of_mem_filter hmem
          rw [hall a hcm] at hd
          exact absurd hd (by simp)
      rw [hcompute, hpp]
      simp [hemp]
  · intro hex
    obtain ⟨run, hp⟩ := hex
    exact specNetPhrase_complete (lowerData text) run hp

/-- Concrete instantiation of the amended C8 theorem: a captured run with
digits yields its digit value, and a text with no net-effective phrase
falls back to the nominal price. -/
theorem c8_net_price_witness :
    computeNetPrice ("$4,300 net effective") (some 4000) =
      some (digitsVal (("4,300".data).filter Char.isDigit))
    ∧ computeNetPrice ("no mention here") (some 4000) = some 4000 := by
  have h1 := (c8_net_price_spec ("$4,300 net effective") (some 4000)).2.1
    ("4,300".data) (by decide)
  refine ⟨h1.2.2.1 (by decide), ?_⟩
  apply (c8_net_price_spec ("no mention here") (some 4000)).1
  intro hex
  obtain ⟨run, hrun⟩ :=
    (c8_net_price_spec ("no mention here") (some 4000)).2.2 hex
  rw [show searchNetEff (lowerData ("no mention here")) = none from by decide] at hrun
  exact Option.noConfusion hrun
